import Mathlib

/-!
Formal model of the Timeline Segmentation & Chaptering Engine of this
repository: the diarization normalizer and word aligner
(`ai_engine/diarizer.py`) and the chapter segmenter
(`ai_engine/chapterizer.py`).

Conventions of the embedding:
* Python floats are modelled as rationals (`ℚ`).  Every concrete time in
  the verified scenarios is exactly representable at three decimals, and
  none of the comparisons involved is within float-rounding distance of a
  boundary.
* Python dicts become structures; the dict key `end` becomes the field
  `stop` (`end` is reserved in Lean).
* The external collaborators (the pyannote pipeline, the sentence embedder
  together with the agglomerative clustering run on its vectors, and the
  Ollama title endpoint) are abstracted as explicit function parameters;
  everything downstream of their outputs is modelled from the source.
* Status-reporting calls (`update_job_status`) and logging are side
  effects with no influence on the returned values and are omitted.
-/

/-- Whitespace as stripped by Python's `str.strip()` (the ASCII set; the
unicode spaces Python also strips occur nowhere in this repository's
data). -/
def pyWhitespace (c : Char) : Bool :=
  c == ' ' || c == '\t' || c == '\n' || c == '\x0d' || c == '\x0b' || c == '\x0c'

/-- Python `s.strip()`: remove leading and trailing whitespace. -/
def strip (s : String) : String :=
  ⟨((s.data.dropWhile pyWhitespace).reverse.dropWhile pyWhitespace).reverse⟩

/-- Python `s[:n]`: the first `n` characters (code points) of `s`. -/
def sliceTo (n : Nat) (s : String) : String := ⟨s.data.take n⟩

/-- Python `s.replace('"', '')`: remove every double-quote character. -/
def removeQuote (s : String) : String := ⟨s.data.filter (fun c => c ≠ '"')⟩

/-- Python `sep.join(parts)`. -/
def joinSep (sep : String) : List String → String
  | [] => ""
  | [a] => a
  | a :: rest => a ++ sep ++ joinSep sep rest

namespace Diarizer

/-- Model of `Diarizer._round_time(t, ndigits=3)`, i.e. `round(float(t), 3)`.
Python rounds half to even on binary floats; the rational model rounds half
up (`⌊x + 1/2⌋`), which agrees everywhere except at exact half-millisecond
ties, which occur in none of the verified scenarios. -/
def _round_time (t : ℚ) : ℚ := (⌊t * 1000 + 1 / 2⌋ : ℚ) / 1000

end Diarizer

/-- A speaker turn as handled by `Diarizer`: the dicts
`{"start": float, "end": float, "speaker": str}`.  `stop` models the
source's `"end"` key. -/
structure RawTurn where
  start : ℚ
  stop : ℚ
  speaker : String
deriving DecidableEq, Repr

namespace Diarizer

/-- Model of the static method `Diarizer._segment_duration(seg)`:
`seg["end"] - seg["start"]`. -/
def _segment_duration (seg : RawTurn) : ℚ := seg.stop - seg.start

/-- Rounding both timestamps of a turn: the in-place loop
`s["start"] = self._round_time(s["start"]); s["end"] = self._round_time(s["end"])`. -/
def roundTurn (s : RawTurn) : RawTurn :=
  { s with start := _round_time s.start, stop := _round_time s.stop }

/-- Model of `sorted(raw_segments, key=lambda s: s["start"])`: a stable sort
by `start` (`List.insertionSort` with this relation is stable, like
Python's `sorted`). -/
def sortByStart (l : List RawTurn) : List RawTurn :=
  l.insertionSort (fun a b => a.start ≤ b.start)

/-- The first merge loop of `Diarizer._postprocess_segments`.  `last` is the
trailing element `merged[-1]` that the Python loop mutates in place; the
already-closed prefix of `merged` is emitted as the head of the result. -/
def mergeAux (merge_gap min_segment_duration : ℚ) (last : RawTurn) :
    List RawTurn → List RawTurn
  | [] => [last]
  | seg :: rest =>
    let gap := seg.start - last.stop
    if seg.speaker = last.speaker ∧ gap ≤ merge_gap then
      mergeAux merge_gap min_segment_duration
        { last with stop := max last.stop seg.stop } rest
    else if _segment_duration seg < min_segment_duration ∧ gap ≤ merge_gap then
      mergeAux merge_gap min_segment_duration
        { last with stop := max last.stop seg.stop } rest
    else
      last :: mergeAux merge_gap min_segment_duration seg rest

/-- The second loop of `Diarizer._postprocess_segments` ("Remove segments
that are still too short by merging into neighbor if possible").  `last` is
`final[-1]`; the very first element is always appended, because when
`final` is empty the Python condition `dur < ... and final` is false. -/
def dropShortAux (min_segment_duration : ℚ) (last : RawTurn) :
    List RawTurn → List RawTurn
  | [] => [last]
  | seg :: rest =>
    if _segment_duration seg < min_segment_duration then
      dropShortAux min_segment_duration { last with stop := max last.stop seg.stop } rest
    else
      last :: dropShortAux min_segment_duration seg rest

/-- The stable relabelling loop of `Diarizer._postprocess_segments`:
`m` is the association list `speaker_map`, `n` is `next_idx`. -/
def relabelAux : List (String × String) → Nat → List RawTurn → List RawTurn
  | _, _, [] => []
  | m, n, t :: rest =>
    match m.lookup t.speaker with
    | some lbl => { t with speaker := lbl } :: relabelAux m n rest
    | none =>
      { t with speaker := "Speaker " ++ toString n } ::
        relabelAux (m ++ [(t.speaker, "Speaker " ++ toString n)]) (n + 1) rest

/-- Model of `Diarizer._postprocess_segments(raw_segments)`.  The
`merge_gap` and `min_segment_duration` constructor parameters are passed
explicitly.  The trailing float-cast loop of the source is the identity
here and is omitted. -/
def _postprocess_segments (merge_gap min_segment_duration : ℚ)
    (raw_segments : List RawTurn) : List RawTurn :=
  match (sortByStart raw_segments).map roundTurn with
  | [] => []
  | s :: rest =>
    let merged := mergeAux merge_gap min_segment_duration s rest
    let final :=
      match merged with
      | [] => []
      | m :: mr => dropShortAux min_segment_duration m mr
    sortByStart (relabelAux [] 1 final)

end Diarizer

/-- The time interval of a turn, used to compare normalizer outputs "on
intervals" (ignoring the speaker label). -/
def turnInterval (t : RawTurn) : ℚ × ℚ := (t.start, t.stop)

/-- A word record as produced by the transcriber and consumed by
`Diarizer.align_transcript_with_diarization`:
`{"start": ..., "end": ..., "word": ..., "probability": ...}`. -/
structure Word where
  word : String
  start : ℚ
  stop : ℚ
  probability : ℚ
deriving DecidableEq, Repr

/-- An ASR segment `{"start": ..., "end": ..., "text": ..., "words": [...]}`.
A segment whose `words` key is absent is modelled by an empty `words`
list (the source treats a missing key and an empty list identically). -/
structure ASRSegment where
  start : ℚ
  stop : ℚ
  text : String
  words : List Word
deriving DecidableEq, Repr

/-- An aligned span `{"speaker": ..., "start": ..., "end": ..., "text": ...}`. -/
structure AlignedSpan where
  speaker : String
  start : ℚ
  stop : ℚ
  text : String
deriving DecidableEq, Repr

namespace Diarizer

/-- The local helper `get_speaker_at(time_point)` of
`align_transcript_with_diarization`: first diarization segment whose
interval contains the point, else the sentinel `"Speaker"`. -/
def get_speaker_at (diarization_segments : List RawTurn) (time_point : ℚ) : String :=
  match diarization_segments with
  | [] => "Speaker"
  | seg :: rest =>
    if seg.start ≤ time_point ∧ time_point ≤ seg.stop then seg.speaker
    else get_speaker_at rest time_point

/-- The word-flattening loop of `align_transcript_with_diarization`: word
lists are concatenated; a segment with no words becomes a single
pseudo-word spanning the segment with probability 1. -/
def flattenWords (asr_segments : List ASRSegment) : List Word :=
  (asr_segments.map fun s =>
    if s.words ≠ [] then s.words else [⟨s.text, s.start, s.stop, 1⟩]).flatten

/-- Closing the accumulated `current_speaker_words` into one span:
`start` of the first word, `end` of the last word, and
`"".join(...).strip()` for the text.  The `[]` case is unreachable: the
accumulator is non-empty at every call site. -/
def closeSpan (speaker : String) : List Word → AlignedSpan
  | [] => ⟨speaker, 0, 0, ""⟩
  | w :: ws =>
    ⟨speaker, w.start, ((w :: ws).getLast (List.cons_ne_nil w ws)).stop,
      strip (String.join ((w :: ws).map (·.word)))⟩

/-- The per-word grouping loop of `align_transcript_with_diarization`:
`current_speaker` and `current_words` are the loop state; a change of
speaker closes the current span. -/
def alignAux (diarization_segments : List RawTurn) (current_speaker : String)
    (current_words : List Word) : List Word → List AlignedSpan
  | [] => [closeSpan current_speaker current_words]
  | w :: rest =>
    let midpoint := (w.start + w.stop) / 2
    let word_speaker := get_speaker_at diarization_segments midpoint
    if word_speaker ≠ current_speaker then
      closeSpan current_speaker current_words ::
        alignAux diarization_segments word_speaker [w] rest
    else
      alignAux diarization_segments current_speaker (current_words ++ [w]) rest

/-- Model of the static method
`Diarizer.align_transcript_with_diarization(diarization_segments, asr_segments)`. -/
def align_transcript_with_diarization (diarization_segments : List RawTurn)
    (asr_segments : List ASRSegment) : List AlignedSpan :=
  match flattenWords asr_segments with
  | [] => []
  | w :: rest =>
    alignAux diarization_segments
      (get_speaker_at diarization_segments ((w.start + w.stop) / 2)) [w] rest

end Diarizer

/-- A transcript unit fed to `Chapterizer.process`: a dict with
`'text'`, `'start'`, `'end'`. -/
structure TranscriptSegment where
  text : String
  start : ℚ
  stop : ℚ
deriving DecidableEq, Repr

/-- A chunk built by `Chapterizer._chunk_segments`:
`{"text": ..., "start": ..., "end": ...}`. -/
structure Chunk where
  text : String
  start : ℚ
  stop : ℚ
deriving DecidableEq, Repr

/-- A chapter range built by `Chapterizer._labels_to_chapters`:
`{"start": ..., "end": ..., "text": ...}`. -/
structure PreChapter where
  start : ℚ
  stop : ℚ
  text : String
deriving DecidableEq, Repr

/-- A final chapter dict of `Chapterizer.process`.  The short-circuit
branch (`len(chunked_data) < 2`) emits a dict with no `"end"` key, hence
`stop` is an `Option`. -/
structure Chapter where
  start : ℚ
  stop : Option ℚ
  title : String
  summary : String
deriving DecidableEq, Repr

/-- Outcome of the `requests.post` call in `Chapterizer._generate_title`:
either an exception (connection error, timeout, JSON decode failure), or a
response with an HTTP status code and the string
`response.json().get("response", "")`. -/
inductive OllamaResult where
  | exc : OllamaResult
  | resp (status : Nat) (body : String) : OllamaResult
deriving DecidableEq, Repr

namespace Chapterizer

/-- The loop body of `Chapterizer._chunk_segments`: `i` is the loop index,
`current_text` and `current_start` the loop state.  A chunk is closed when
`(i + 1) % window_size == 0` or at the last segment, and the next chunk
starts at the following segment's start. -/
def chunkAux (window_size : Nat) : Nat → List TranscriptSegment → List String → ℚ → List Chunk
  | _, [], _, _ => []
  | i, seg :: rest, current_text, current_start =>
    let current_text' := current_text ++ [seg.text]
    if (i + 1) % window_size = 0 ∨ rest = [] then
      ⟨joinSep " " current_text', current_start, seg.stop⟩ ::
        (match rest with
         | [] => []
         | next :: _ => chunkAux window_size (i + 1) rest [] next.start)
    else
      chunkAux window_size (i + 1) rest current_text' current_start

/-- Model of `Chapterizer._chunk_segments(segments, window_size)`.  The
source reads `segments[0]['start']` before the loop, so it is only ever
called on non-empty input (`process` guards); the empty case is mapped to
the empty list. -/
def _chunk_segments (segments : List TranscriptSegment) (window_size : Nat) : List Chunk :=
  match segments with
  | [] => []
  | s :: _ => chunkAux window_size 0 segments [] s.start

/-- The loop body of `Chapterizer._labels_to_chapters`: `current_label`,
`chapter_start`, `chapter_text` are the loop state and `prev` is
`chunks[i-1]`; the remaining `(label, chunk)` pairs are walked in order. -/
def ltcAux (current_label : Nat) (chapter_start : ℚ) (chapter_text : List String)
    (prev : Chunk) : List (Nat × Chunk) → List PreChapter
  | [] => [⟨chapter_start, prev.stop, joinSep " " chapter_text⟩]
  | (l, c) :: rest =>
    if l ≠ current_label then
      ⟨chapter_start, prev.stop, joinSep " " chapter_text⟩ ::
        ltcAux l c.start [c.text] c rest
    else
      ltcAux current_label chapter_start (chapter_text ++ [c.text]) c rest

/-- Model of `Chapterizer._labels_to_chapters(labels, chunks)`.  The source
reads `labels[0]` and `chunks[0]` up front and walks both in lockstep
(clustering returns one label per chunk); the degenerate empty case is
mapped to the empty list. -/
def _labels_to_chapters (labels : List Nat) (chunks : List Chunk) : List PreChapter :=
  match labels, chunks with
  | l :: ls, c :: cs => ltcAux l c.start [c.text] c (ls.zip cs)
  | _, _ => []

/-- Model of `Chapterizer._generate_title(text)`.  `ollama` abstracts the
`requests.post` call to the title endpoint (the request embeds
`text[:1500]` in a fixed prompt template; the oracle is keyed by the
chapter text).  On HTTP 200 the title is
`response.json().get("response", "").strip().replace('"', '')`, with
`"Chapter"` substituted when it is empty; every other outcome falls
through to `"New Chapter"`. -/
def _generate_title (ollama : String → OllamaResult) (text : String) : String :=
  if text.length < 50 then "Untitled Segment"
  else
    match ollama text with
    | .exc => "New Chapter"
    | .resp status body =>
      if status = 200 then
        let title := removeQuote (strip body)
        if title ≠ "" then title else "Chapter"
      else "New Chapter"

/-- Model of `Chapterizer.process(job_id, segments)`.  `clusterLabels`
abstracts steps 2 and 3 of the source (sentence embedding followed by the
temporally-constrained agglomerative clustering): it receives the chunk
texts (`sentences`) and returns the per-chunk cluster labels.  `ollama`
abstracts the title endpoint as in `_generate_title`. -/
def process (segments : List TranscriptSegment)
    (clusterLabels : List String → List Nat)
    (ollama : String → OllamaResult) : List Chapter :=
  if segments = [] then []
  else
    let chunked_data := _chunk_segments segments 3
    if chunked_data.length < 2 then
      [⟨0, none, "Overview", "Full Content"⟩]
    else
      let sentences := chunked_data.map (·.text)
      let labels := clusterLabels sentences
      let chapters := _labels_to_chapters labels chunked_data
      chapters.map fun ch =>
        ⟨ch.start, some ch.stop, _generate_title ollama ch.text,
          sliceTo 200 ch.text ++ "..."⟩

end Chapterizer

/-! ### Lemmas about the normalizer -/

namespace Diarizer

instance : IsTotal RawTurn (fun a b => a.start ≤ b.start) :=
  ⟨fun a b => le_total a.start b.start⟩

instance : IsTrans RawTurn (fun a b => a.start ≤ b.start) :=
  ⟨fun _ _ _ h h' => le_trans h h'⟩

theorem sortByStart_sorted (l : List RawTurn) :
    List.Pairwise (fun a b => a.start ≤ b.start) (sortByStart l) :=
  List.sorted_insertionSort _ l

theorem sortByStart_perm (l : List RawTurn) : List.Perm (sortByStart l) l :=
  List.perm_insertionSort _ l

theorem sortByStart_eq_self {l : List RawTurn}
    (h : List.Pairwise (fun a b => a.start ≤ b.start) l) : sortByStart l = l :=
  List.Sorted.insertionSort_eq h

theorem mergeAux_ne_nil (g m : ℚ) (last : RawTurn) (l : List RawTurn) :
    mergeAux g m last l ≠ [] := by
  induction l generalizing last with
  | nil => simp [mergeAux]
  | cons seg rest ih =>
    simp only [mergeAux]
    split_ifs <;> simp [ih]

theorem mergeAux_headStart (g m : ℚ) (last : RawTurn) (l : List RawTurn) :
    (mergeAux g m last l).head?.map (·.start) = some last.start := by
  induction l generalizing last with
  | nil => simp [mergeAux]
  | cons seg rest ih =>
    simp only [mergeAux]
    split_ifs <;> simp_all

theorem mergeAux_chain_start (g m : ℚ) {last : RawTurn} {l : List RawTurn}
    (h : List.Chain' (fun a b => a.start ≤ b.start) (last :: l)) :
    List.Chain' (fun a b => a.start ≤ b.start) (mergeAux g m last l) := by
  induction l generalizing last with
  | nil => simp [mergeAux]
  | cons seg rest ih =>
    rw [List.chain'_cons] at h
    obtain ⟨h1, h2⟩ := h
    rw [List.chain'_cons'] at h2
    simp only [mergeAux]
    split_ifs with hc1 hc2
    · exact ih (by
        rw [List.chain'_cons']
        exact ⟨fun y hy => le_trans h1 (h2.1 y hy), h2.2⟩)
    · exact ih (by
        rw [List.chain'_cons']
        exact ⟨fun y hy => le_trans h1 (h2.1 y hy), h2.2⟩)
    · rw [List.chain'_cons']
      refine ⟨fun y hy => ?_, ih (List.chain'_cons'.mpr h2)⟩
      have hh := mergeAux_headStart g m seg rest
      rw [Option.mem_def] at hy
      rw [hy] at hh
      simp only [Option.map_some'] at hh
      rw [Option.some.injEq] at hh
      show last.start ≤ y.start
      rw [hh]
      exact h1

theorem mergeAux_wf (g m : ℚ) {last : RawTurn} {l : List RawTurn}
    (hlast : last.start ≤ last.stop) (hl : ∀ x ∈ l, x.start ≤ x.stop) :
    ∀ x ∈ mergeAux g m last l, x.start ≤ x.stop := by
  induction l generalizing last with
  | nil => simpa [mergeAux] using hlast
  | cons seg rest ih =>
    have hseg := hl seg (List.mem_cons_self seg rest)
    have hrest : ∀ x ∈ rest, x.start ≤ x.stop := fun x hx => hl x (List.mem_cons_of_mem _ hx)
    simp only [mergeAux]
    split_ifs with hc1 hc2
    · exact ih (le_trans hlast (le_max_left _ _)) hrest
    · exact ih (le_trans hlast (le_max_left _ _)) hrest
    · intro x hx
      rcases List.mem_cons.mp hx with h | h
      · exact h ▸ hlast
      · exact ih hseg hrest x h

theorem mergeAux_chain_ov (g m : ℚ) {last : RawTurn} {l : List RawTurn}
    (hl : ∀ x ∈ l, x.start ≤ x.stop)
    (h : List.Chain' (fun a b => a.stop ≤ b.start) (last :: l)) :
    List.Chain' (fun a b => a.stop ≤ b.start) (mergeAux g m last l) := by
  induction l generalizing last with
  | nil => simp [mergeAux]
  | cons seg rest ih =>
    have hseg := hl seg (List.mem_cons_self seg rest)
    have hrest : ∀ x ∈ rest, x.start ≤ x.stop := fun x hx => hl x (List.mem_cons_of_mem _ hx)
    rw [List.chain'_cons] at h
    obtain ⟨h1, h2⟩ := h
    rw [List.chain'_cons'] at h2
    simp only [mergeAux]
    split_ifs with hc1 hc2
    · refine ih hrest ?_
      rw [List.chain'_cons']
      refine ⟨fun y hy => ?_, h2.2⟩
      have := h2.1 y hy
      show max last.stop seg.stop ≤ y.start
      exact max_le (le_trans h1 (le_trans hseg this)) this
    · refine ih hrest ?_
      rw [List.chain'_cons']
      refine ⟨fun y hy => ?_, h2.2⟩
      have := h2.1 y hy
      show max last.stop seg.stop ≤ y.start
      exact max_le (le_trans h1 (le_trans hseg this)) this
    · rw [List.chain'_cons']
      refine ⟨fun y hy => ?_, ih hrest (List.chain'_cons'.mpr h2)⟩
      have hh := mergeAux_headStart g m seg rest
      rw [Option.mem_def] at hy
      rw [hy] at hh
      simp only [Option.map_some'] at hh
      rw [Option.some.injEq] at hh
      show last.stop ≤ y.start
      rw [hh]
      exact h1

theorem mergeAux_mem (g m : ℚ) : ∀ (l : List RawTurn) (last : RawTurn),
    ∀ x ∈ mergeAux g m last l,
      (∃ u ∈ last :: l, x.start = u.start) ∧ (∃ u ∈ last :: l, x.stop = u.stop) := by
  intro l
  induction l with
  | nil =>
    intro last x hx
    simp only [mergeAux, List.mem_singleton] at hx
    subst hx
    exact ⟨⟨x, by simp, rfl⟩, ⟨x, by simp, rfl⟩⟩
  | cons seg rest ih =>
    intro last x hx
    have step : ∀ y : RawTurn, y ∈ mergeAux g m { last with stop := max last.stop seg.stop } rest →
        (∃ u ∈ last :: seg :: rest, y.start = u.start) ∧
        (∃ u ∈ last :: seg :: rest, y.stop = u.stop) := by
      intro y hy
      obtain ⟨⟨u, hu, hs⟩, ⟨v, hv, hv'⟩⟩ := ih _ y hy
      constructor
      · rcases List.mem_cons.mp hu with h | h
        · exact ⟨last, List.mem_cons_self _ _, by rw [hs, h]⟩
        · exact ⟨u, by simp [h], hs⟩
      · rcases List.mem_cons.mp hv with h | h
        · rcases max_choice last.stop seg.stop with hm | hm
          · refine ⟨last, by simp, ?_⟩
            rw [hv', h]
            exact hm
          · refine ⟨seg, by simp, ?_⟩
            rw [hv', h]
            exact hm
        · exact ⟨v, by simp [h], hv'⟩
    simp only [mergeAux] at hx
    split_ifs at hx with hc1 hc2
    · exact step x hx
    · exact step x hx
    · rcases List.mem_cons.mp hx with h | h
      · subst h
        exact ⟨⟨x, by simp, rfl⟩, ⟨x, by simp, rfl⟩⟩
      · obtain ⟨⟨u, hu, hs⟩, ⟨v, hv, hv'⟩⟩ := ih seg x h
        exact ⟨⟨u, List.mem_cons_of_mem _ hu, hs⟩, ⟨v, List.mem_cons_of_mem _ hv, hv'⟩⟩

theorem mergeAux_eq_self (g m : ℚ) : ∀ {l : List RawTurn} {last : RawTurn},
    List.Chain' (fun a b =>
      ¬(b.speaker = a.speaker ∧ b.start - a.stop ≤ g) ∧
      ¬(_segment_duration b < m ∧ b.start - a.stop ≤ g)) (last :: l) →
    mergeAux g m last l = last :: l := by
  intro l
  induction l with
  | nil => intro last _; simp [mergeAux]
  | cons seg rest ih =>
    intro last h
    rw [List.chain'_cons] at h
    obtain ⟨⟨hn1, hn2⟩, h2⟩ := h
    simp only [mergeAux, if_neg hn1, if_neg hn2]
    rw [ih h2]

theorem dropShortAux_ne_nil (m : ℚ) (last : RawTurn) (l : List RawTurn) :
    dropShortAux m last l ≠ [] := by
  induction l generalizing last with
  | nil => simp [dropShortAux]
  | cons seg rest ih =>
    simp only [dropShortAux]
    split_ifs <;> simp [ih]

theorem dropShortAux_headStart (m : ℚ) (last : RawTurn) (l : List RawTurn) :
    (dropShortAux m last l).head?.map (·.start) = some last.start := by
  induction l generalizing last with
  | nil => simp [dropShortAux]
  | cons seg rest ih =>
    simp only [dropShortAux]
    split_ifs <;> simp_all

theorem dropShortAux_chain_start (m : ℚ) {last : RawTurn} {l : List RawTurn}
    (h : List.Chain' (fun a b => a.start ≤ b.start) (last :: l)) :
    List.Chain' (fun a b => a.start ≤ b.start) (dropShortAux m last l) := by
  induction l generalizing last with
  | nil => simp [dropShortAux]
  | cons seg rest ih =>
    rw [List.chain'_cons] at h
    obtain ⟨h1, h2⟩ := h
    rw [List.chain'_cons'] at h2
    simp only [dropShortAux]
    split_ifs with hc
    · exact ih (by
        rw [List.chain'_cons']
        exact ⟨fun y hy => le_trans h1 (h2.1 y hy), h2.2⟩)
    · rw [List.chain'_cons']
      refine ⟨fun y hy => ?_, ih (List.chain'_cons'.mpr h2)⟩
      have hh := dropShortAux_headStart m seg rest
      rw [Option.mem_def] at hy
      rw [hy] at hh
      simp only [Option.map_some'] at hh
      rw [Option.some.injEq] at hh
      show last.start ≤ y.start
      rw [hh]
      exact h1

theorem dropShortAux_chain_ov (m : ℚ) {last : RawTurn} {l : List RawTurn}
    (hl : ∀ x ∈ l, x.start ≤ x.stop)
    (h : List.Chain' (fun a b => a.stop ≤ b.start) (last :: l)) :
    List.Chain' (fun a b => a.stop ≤ b.start) (dropShortAux m last l) := by
  induction l generalizing last with
  | nil => simp [dropShortAux]
  | cons seg rest ih =>
    have hseg := hl seg (List.mem_cons_self seg rest)
    have hrest : ∀ x ∈ rest, x.start ≤ x.stop := fun x hx => hl x (List.mem_cons_of_mem _ hx)
    rw [List.chain'_cons] at h
    obtain ⟨h1, h2⟩ := h
    rw [List.chain'_cons'] at h2
    simp only [dropShortAux]
    split_ifs with hc
    · refine ih hrest ?_
      rw [List.chain'_cons']
      refine ⟨fun y hy => ?_, h2.2⟩
      have := h2.1 y hy
      show max last.stop seg.stop ≤ y.start
      exact max_le (le_trans h1 (le_trans hseg this)) this
    · rw [List.chain'_cons']
      refine ⟨fun y hy => ?_, ih hrest (List.chain'_cons'.mpr h2)⟩
      have hh := dropShortAux_headStart m seg rest
      rw [Option.mem_def] at hy
      rw [hy] at hh
      simp only [Option.map_some'] at hh
      rw [Option.some.injEq] at hh
      show last.stop ≤ y.start
      rw [hh]
      exact h1

theorem dropShortAux_mem (m : ℚ) : ∀ (l : List RawTurn) (last : RawTurn),
    ∀ x ∈ dropShortAux m last l,
      (∃ u ∈ last :: l, x.start = u.start) ∧ (∃ u ∈ last :: l, x.stop = u.stop) := by
  intro l
  induction l with
  | nil =>
    intro last x hx
    simp only [dropShortAux, List.mem_singleton] at hx
    subst hx
    exact ⟨⟨x, by simp, rfl⟩, ⟨x, by simp, rfl⟩⟩
  | cons seg rest ih =>
    intro last x hx
    simp only [dropShortAux] at hx
    split_ifs at hx with hc
    · obtain ⟨⟨u, hu, hs⟩, ⟨v, hv, hv'⟩⟩ := ih _ x hx
      constructor
      · rcases List.mem_cons.mp hu with h | h
        · exact ⟨last, List.mem_cons_self _ _, by rw [hs, h]⟩
        · exact ⟨u, by simp [h], hs⟩
      · rcases List.mem_cons.mp hv with h | h
        · rcases max_choice last.stop seg.stop with hm | hm
          · refine ⟨last, by simp, ?_⟩
            rw [hv', h]
            exact hm
          · refine ⟨seg, by simp, ?_⟩
            rw [hv', h]
            exact hm
        · exact ⟨v, by simp [h], hv'⟩
    · rcases List.mem_cons.mp hx with h | h
      · subst h
        exact ⟨⟨x, by simp, rfl⟩, ⟨x, by simp, rfl⟩⟩
      · obtain ⟨⟨u, hu, hs⟩, ⟨v, hv, hv'⟩⟩ := ih seg x h
        exact ⟨⟨u, List.mem_cons_of_mem _ hu, hs⟩, ⟨v, List.mem_cons_of_mem _ hv, hv'⟩⟩

theorem dropShortAux_dur_ge (m : ℚ) : ∀ (l : List RawTurn) {last : RawTurn},
    m ≤ _segment_duration last →
    ∀ x ∈ dropShortAux m last l, m ≤ _segment_duration x := by
  intro l
  induction l with
  | nil =>
    intro last hlast x hx
    simp only [dropShortAux, List.mem_singleton] at hx
    exact hx ▸ hlast
  | cons seg rest ih =>
    intro last hlast x hx
    simp only [dropShortAux] at hx
    split_ifs at hx with hc
    · refine ih ?_ x hx
      have : last.stop ≤ max last.stop seg.stop := le_max_left _ _
      unfold _segment_duration at hlast ⊢
      simp only
      linarith
    · rcases List.mem_cons.mp hx with h | h
      · exact h ▸ hlast
      · exact ih (le_of_not_lt hc) x h

theorem dropShortAux_tail_dur (m : ℚ) : ∀ (l : List RawTurn) (last : RawTurn),
    ∀ x ∈ (dropShortAux m last l).tail, m ≤ _segment_duration x := by
  intro l
  induction l with
  | nil => intro last x hx; simp [dropShortAux] at hx
  | cons seg rest ih =>
    intro last x hx
    simp only [dropShortAux] at hx
    split_ifs at hx with hc
    · exact ih _ x hx
    · simp only [List.tail_cons] at hx
      exact dropShortAux_dur_ge m rest (le_of_not_lt hc) x hx

theorem dropShortAux_eq_self (m : ℚ) : ∀ {l : List RawTurn} {last : RawTurn},
    (∀ x ∈ l, ¬(_segment_duration x < m)) →
    dropShortAux m last l = last :: l := by
  intro l
  induction l with
  | nil => intro last _; simp [dropShortAux]
  | cons seg rest ih =>
    intro last h
    simp only [dropShortAux, if_neg (h seg (List.mem_cons_self seg rest))]
    rw [ih fun x hx => h x (List.mem_cons_of_mem _ hx)]

theorem relabelAux_map_interval (l : List RawTurn) :
    ∀ (m : List (String × String)) (n : Nat),
      (relabelAux m n l).map turnInterval = l.map turnInterval := by
  induction l with
  | nil => intro m n; simp [relabelAux]
  | cons t rest ih =>
    intro m n
    simp only [relabelAux]
    cases m.lookup t.speaker <;> simp [turnInterval, ih]

theorem relabelAux_map_start (l : List RawTurn) :
    ∀ (m : List (String × String)) (n : Nat),
      (relabelAux m n l).map (·.start) = l.map (·.start) := by
  induction l with
  | nil => intro m n; simp [relabelAux]
  | cons t rest ih =>
    intro m n
    simp only [relabelAux]
    cases m.lookup t.speaker <;> simp [ih]

theorem _round_time_mono {a b : ℚ} (h : a ≤ b) : _round_time a ≤ _round_time b := by
  unfold _round_time
  have : (⌊a * 1000 + 1 / 2⌋ : ℤ) ≤ ⌊b * 1000 + 1 / 2⌋ := Int.floor_mono (by linarith)
  have h1000 : (0 : ℚ) < 1000 := by norm_num
  rw [div_le_div_iff_of_pos_right h1000]
  exact_mod_cast this

theorem _round_time_idem (t : ℚ) : _round_time (_round_time t) = _round_time t := by
  unfold _round_time
  rw [div_mul_eq_mul_div, mul_div_assoc, div_self (by norm_num : (1000 : ℚ) ≠ 0), mul_one]
  rw [Int.floor_int_add]
  norm_num

theorem roundTurn_wf {t : RawTurn} (h : t.start ≤ t.stop) :
    (roundTurn t).start ≤ (roundTurn t).stop := by
  simp only [roundTurn]
  exact _round_time_mono h

theorem rounded_sorted (raw : List RawTurn) :
    List.Pairwise (fun a b => a.start ≤ b.start) ((sortByStart raw).map roundTurn) := by
  rw [List.pairwise_map]
  exact (sortByStart_sorted raw).imp fun h => _round_time_mono h

theorem _postprocess_segments_eq_core (g m : ℚ) (raw : List RawTurn) :
    _postprocess_segments g m raw =
      match (sortByStart raw).map roundTurn with
      | [] => []
      | s :: rest =>
        relabelAux [] 1
          (match mergeAux g m s rest with
           | [] => []
           | f :: fr => dropShortAux m f fr) := by
  unfold _postprocess_segments
  have hsorted := rounded_sorted raw
  cases hseg : (sortByStart raw).map roundTurn with
  | nil => rfl
  | cons s rest =>
    rw [hseg] at hsorted
    have hchain : List.Chain' (fun a b => a.start ≤ b.start) (s :: rest) :=
      hsorted.chain'
    have hmergedchain := mergeAux_chain_start g m hchain
    cases hmerge : mergeAux g m s rest with
    | nil => exact absurd hmerge (mergeAux_ne_nil g m s rest)
    | cons f fr =>
      rw [hmerge] at hmergedchain
      have hfinalchain := dropShortAux_chain_start m hmergedchain
      have hfinalpair : List.Pairwise (fun a b => a.start ≤ b.start)
          (dropShortAux m f fr) := List.chain'_iff_pairwise.mp hfinalchain
      have hrel : List.Pairwise (fun a b => a.start ≤ b.start)
          (relabelAux [] 1 (dropShortAux m f fr)) := by
        have hmap := relabelAux_map_start (dropShortAux m f fr) [] 1
        rw [← List.pairwise_map (f := fun t : RawTurn => t.start)] at hfinalpair ⊢
        rw [hmap]
        exact hfinalpair
      simp only
      rw [hmerge]
      rw [sortByStart_eq_self hrel]

theorem relabel_interval_mem {L : List RawTurn} {t : RawTurn}
    (ht : t ∈ relabelAux [] 1 L) : ∃ u ∈ L, turnInterval u = turnInterval t := by
  have h1 : turnInterval t ∈ (relabelAux [] 1 L).map turnInterval :=
    List.mem_map_of_mem _ ht
  rw [relabelAux_map_interval] at h1
  exact List.mem_map.mp h1

theorem relabel_tail_interval_mem {L : List RawTurn} {t : RawTurn}
    (ht : t ∈ (relabelAux [] 1 L).tail) : ∃ u ∈ L.tail, turnInterval u = turnInterval t := by
  have h1 : turnInterval t ∈ ((relabelAux [] 1 L).tail).map turnInterval :=
    List.mem_map_of_mem _ ht
  rw [List.map_tail, relabelAux_map_interval, ← List.map_tail] at h1
  exact List.mem_map.mp h1

theorem _postprocess_tail_dur (g m : ℚ) (raw : List RawTurn) :
    ∀ t ∈ (_postprocess_segments g m raw).tail, m ≤ _segment_duration t := by
  rw [_postprocess_segments_eq_core]
  cases hseg : (sortByStart raw).map roundTurn with
  | nil => simp
  | cons s rest =>
    cases hmerge : mergeAux g m s rest with
    | nil => exact absurd hmerge (mergeAux_ne_nil g m s rest)
    | cons f fr =>
      intro t ht
      simp only [hmerge] at ht
      obtain ⟨u, hu, hui⟩ := relabel_tail_interval_mem ht
      have hdur := dropShortAux_tail_dur m fr f u hu
      have h1 : u.start = t.start := congrArg Prod.fst hui
      have h2 : u.stop = t.stop := congrArg Prod.snd hui
      unfold _segment_duration at hdur ⊢
      rw [← h1, ← h2]
      exact hdur

theorem mem_rounded_sorted {raw : List RawTurn} {x : RawTurn}
    (hx : x ∈ (sortByStart raw).map roundTurn) :
    ∃ r ∈ raw, x = roundTurn r := by
  obtain ⟨r, hr, hrx⟩ := List.mem_map.mp hx
  exact ⟨r, (sortByStart_perm raw).mem_iff.mp hr, hrx.symm⟩

theorem _postprocess_mem_times (g m : ℚ) (raw : List RawTurn) :
    ∀ t ∈ _postprocess_segments g m raw,
      (∃ r ∈ raw, t.start = _round_time r.start) ∧
      (∃ r ∈ raw, t.stop = _round_time r.stop) := by
  rw [_postprocess_segments_eq_core]
  cases hseg : (sortByStart raw).map roundTurn with
  | nil => simp
  | cons s rest =>
    cases hmerge : mergeAux g m s rest with
    | nil => exact absurd hmerge (mergeAux_ne_nil g m s rest)
    | cons f fr =>
      intro t ht
      simp only [hmerge] at ht
      obtain ⟨u, hu, hui⟩ := relabel_interval_mem ht
      have h1 : u.start = t.start := congrArg Prod.fst hui
      have h2 : u.stop = t.stop := congrArg Prod.snd hui
      obtain ⟨⟨v, hv, hvs⟩, ⟨v', hv', hvs'⟩⟩ := dropShortAux_mem m fr f u hu
      rw [← hmerge] at hv hv'
      obtain ⟨⟨w, hw, hws⟩, _⟩ := mergeAux_mem g m rest s v hv
      obtain ⟨_, ⟨w', hw', hws'⟩⟩ := mergeAux_mem g m rest s v' hv'
      rw [← hseg] at hw hw'
      obtain ⟨r, hr, hrw⟩ := mem_rounded_sorted hw
      obtain ⟨r', hr', hrw'⟩ := mem_rounded_sorted hw'
      constructor
      · refine ⟨r, hr, ?_⟩
        rw [← h1, hvs, hws, hrw]
        rfl
      · refine ⟨r', hr', ?_⟩
        rw [← h2, hvs', hws', hrw']
        rfl

theorem _postprocess_chain_ov (g m : ℚ) (raw : List RawTurn)
    (hwf : ∀ t ∈ raw, t.start < t.stop)
    (hpair : List.Pairwise (fun a b => a.stop ≤ b.start ∨ b.stop ≤ a.start) raw) :
    List.Chain' (fun a b => a.stop ≤ b.start) (_postprocess_segments g m raw) := by
  rw [_postprocess_segments_eq_core]
  have hperm := sortByStart_perm raw
  have hpair' : List.Pairwise (fun a b => a.stop ≤ b.start ∨ b.stop ≤ a.start)
      (sortByStart raw) :=
    (hperm.pairwise_iff fun h => h.symm).mpr hpair
  have hwfsort : ∀ t ∈ sortByStart raw, t.start < t.stop := fun t ht =>
    hwf t (hperm.mem_iff.mp ht)
  have hsorted := sortByStart_sorted raw
  have hOv : List.Pairwise (fun a b => a.stop ≤ b.start) (sortByStart raw) := by
    refine (hsorted.and hpair').imp_of_mem ?_
    intro a b ha hb hab
    rcases hab.2 with h | h
    · exact h
    · have hb' := hwfsort b hb
      have ha1 := hab.1
      linarith
  have hOvSegs : List.Pairwise (fun a b => a.stop ≤ b.start)
      ((sortByStart raw).map roundTurn) := by
    rw [List.pairwise_map]
    exact hOv.imp fun h => _round_time_mono h
  have hwfsegs : ∀ x ∈ (sortByStart raw).map roundTurn, x.start ≤ x.stop := by
    intro x hx
    obtain ⟨r, hr, hrx⟩ := List.mem_map.mp hx
    exact hrx ▸ roundTurn_wf (le_of_lt (hwfsort r hr))
  cases hseg : (sortByStart raw).map roundTurn with
  | nil => simp
  | cons s rest =>
    rw [hseg] at hOvSegs hwfsegs
    have hchainOv := hOvSegs.chain'
    have hmchain := mergeAux_chain_ov g m
      (fun x hx => hwfsegs x (List.mem_cons_of_mem _ hx)) hchainOv
    have hmwf := mergeAux_wf g m (hwfsegs s (List.mem_cons_self _ _))
      (fun x hx => hwfsegs x (List.mem_cons_of_mem _ hx))
    cases hmerge : mergeAux g m s rest with
    | nil => exact absurd hmerge (mergeAux_ne_nil g m s rest)
    | cons f fr =>
      rw [hmerge] at hmchain hmwf
      have hfchain := dropShortAux_chain_ov m
        (fun x hx => hmwf x (List.mem_cons_of_mem _ hx)) hmchain
      simp only [hmerge]
      have h1 : List.Chain' (fun p q : ℚ × ℚ => p.2 ≤ q.1)
          ((dropShortAux m f fr).map turnInterval) :=
        (List.chain'_map _).mpr hfchain
      rw [← relabelAux_map_interval (dropShortAux m f fr) [] 1] at h1
      exact (List.chain'_map _).mp h1

theorem _postprocess_sorted (g m : ℚ) (raw : List RawTurn) :
    List.Pairwise (fun a b => a.start ≤ b.start) (_postprocess_segments g m raw) := by
  unfold _postprocess_segments
  cases (sortByStart raw).map roundTurn with
  | nil => simp
  | cons s rest => exact sortByStart_sorted _

theorem _postprocess_roundTurn_fix (g m : ℚ) (raw : List RawTurn) :
    ∀ t ∈ _postprocess_segments g m raw, roundTurn t = t := by
  intro t ht
  obtain ⟨⟨r, _, h1⟩, ⟨r', _, h2⟩⟩ := _postprocess_mem_times g m raw t ht
  have hs : _round_time t.start = t.start := by rw [h1, _round_time_idem]
  have he : _round_time t.stop = t.stop := by rw [h2, _round_time_idem]
  simp [roundTurn, hs, he]

theorem chain'_and_tail {α : Type} {R S : α → α → Prop} {P : α → Prop} :
    ∀ {l : List α}, List.Chain' R l → (∀ x ∈ l.tail, P x) →
      (∀ a b, R a b → P b → S a b) → List.Chain' S l
  | [], _, _, _ => List.chain'_nil
  | [_], _, _, _ => List.chain'_singleton _
  | x :: y :: l, hc, hp, him => by
    rw [List.chain'_cons] at hc ⊢
    refine ⟨him x y hc.1 (hp y (List.mem_cons_self _ _)), ?_⟩
    exact chain'_and_tail hc.2 (fun z hz => hp z (List.mem_cons_of_mem _ hz)) him

theorem _postprocess_idem (g m : ℚ) (raw : List RawTurn)
    (h : List.Chain' (fun a b => ¬(b.speaker = a.speaker ∧ b.start - a.stop ≤ g))
      (_postprocess_segments g m raw)) :
    (_postprocess_segments g m (_postprocess_segments g m raw)).map turnInterval =
      (_postprocess_segments g m raw).map turnInterval := by
  have hsortY := _postprocess_sorted g m raw
  have htail := _postprocess_tail_dur g m raw
  have hfix : (_postprocess_segments g m raw).map roundTurn =
      _postprocess_segments g m raw := by
    rw [show (_postprocess_segments g m raw).map roundTurn =
        (_postprocess_segments g m raw).map id from
      List.map_congr_left fun a ha => _postprocess_roundTurn_fix g m raw a ha]
    exact List.map_id _
  rw [_postprocess_segments_eq_core g m (_postprocess_segments g m raw)]
  rw [sortByStart_eq_self hsortY, hfix]
  cases hYc : _postprocess_segments g m raw with
  | nil => simp
  | cons y ytail =>
    rw [hYc] at h htail
    have hchain2 : List.Chain' (fun a b =>
        ¬(b.speaker = a.speaker ∧ b.start - a.stop ≤ g) ∧
        ¬(_segment_duration b < m ∧ b.start - a.stop ≤ g)) (y :: ytail) :=
      chain'_and_tail h htail fun a b hr hp =>
        ⟨hr, fun hc => absurd hc.1 (not_lt.mpr hp)⟩
    have hm := mergeAux_eq_self g m hchain2
    have hd : dropShortAux m y ytail = y :: ytail :=
      dropShortAux_eq_self m fun x hx => not_lt.mpr (htail x hx)
    simp only [hm, hd]
    rw [relabelAux_map_interval]

end Diarizer

/-! ### Lemmas about the chapter segmenter -/

theorem getLast?_cons_ne_nil {α : Type} (a : α) {l : List α} (h : l ≠ []) :
    (a :: l).getLast? = l.getLast? := by
  cases l with
  | nil => exact absurd rfl h
  | cons b t => exact List.getLast?_cons_cons

namespace Chapterizer

theorem chunkAux_ne_nil (w : Nat) : ∀ (l : List TranscriptSegment), l ≠ [] →
    ∀ (i : Nat) (ct : List String) (cs : ℚ), chunkAux w i l ct cs ≠ [] := by
  intro l
  induction l with
  | nil => intro h; exact absurd rfl h
  | cons seg rest ih =>
    intro _ i ct cs
    simp only [chunkAux]
    split_ifs with hb
    · simp
    · exact ih (fun hr => hb (Or.inr hr)) (i + 1) (ct ++ [seg.text]) cs

theorem chunkAux_headStart (w : Nat) : ∀ (l : List TranscriptSegment), l ≠ [] →
    ∀ (i : Nat) (ct : List String) (cs : ℚ),
      (chunkAux w i l ct cs).head?.map (·.start) = some cs := by
  intro l
  induction l with
  | nil => intro h; exact absurd rfl h
  | cons seg rest ih =>
    intro _ i ct cs
    simp only [chunkAux]
    split_ifs with hb
    · simp
    · exact ih (fun hr => hb (Or.inr hr)) (i + 1) (ct ++ [seg.text]) cs

theorem chunkAux_lastStop (w : Nat) : ∀ (l : List TranscriptSegment), l ≠ [] →
    ∀ (i : Nat) (ct : List String) (cs : ℚ),
      (chunkAux w i l ct cs).getLast?.map (·.stop) = l.getLast?.map (·.stop) := by
  intro l
  induction l with
  | nil => intro h; exact absurd rfl h
  | cons seg rest ih =>
    intro _ i ct cs
    simp only [chunkAux]
    split_ifs with hb
    · cases rest with
      | nil => simp
      | cons next rest' =>
        rw [getLast?_cons_ne_nil _ (chunkAux_ne_nil w (next :: rest') (List.cons_ne_nil _ _)
          (i + 1) [] next.start)]
        rw [ih (List.cons_ne_nil _ _) (i + 1) [] next.start]
        rw [getLast?_cons_ne_nil seg (List.cons_ne_nil _ _)]
    · have hrest : rest ≠ [] := fun hr => hb (Or.inr hr)
      rw [ih hrest (i + 1) (ct ++ [seg.text]) cs, getLast?_cons_ne_nil seg hrest]

theorem chunkAux_chain (w : Nat) : ∀ (l : List TranscriptSegment),
    List.Chain' (fun a b => b.start = a.stop) l →
    ∀ (i : Nat) (ct : List String) (cs : ℚ),
      List.Chain' (fun a b : Chunk => b.start = a.stop) (chunkAux w i l ct cs) := by
  intro l
  induction l with
  | nil => intro _ i ct cs; simp [chunkAux]
  | cons seg rest ih =>
    intro hchain i ct cs
    rw [List.chain'_cons'] at hchain
    simp only [chunkAux]
    split_ifs with hb
    · cases rest with
      | nil => simp
      | cons next rest' =>
        rw [List.chain'_cons']
        constructor
        · intro y hy
          have hh := chunkAux_headStart w (next :: rest') (List.cons_ne_nil _ _)
            (i + 1) [] next.start
          rw [Option.mem_def] at hy
          rw [hy] at hh
          simp only [Option.map_some'] at hh
          rw [Option.some.injEq] at hh
          show y.start = seg.stop
          rw [hh]
          exact hchain.1 next rfl
        · exact ih hchain.2 (i + 1) [] next.start
    · exact ih hchain.2 (i + 1) (ct ++ [seg.text]) cs

theorem _chunk_segments_ne_nil {segments : List TranscriptSegment} (h : segments ≠ [])
    (w : Nat) : _chunk_segments segments w ≠ [] := by
  cases segments with
  | nil => exact absurd rfl h
  | cons s rest => exact chunkAux_ne_nil w (s :: rest) (List.cons_ne_nil _ _) 0 [] s.start

theorem _chunk_segments_headStart {segments : List TranscriptSegment} (h : segments ≠ [])
    (w : Nat) :
    (_chunk_segments segments w).head?.map (·.start) = segments.head?.map (·.start) := by
  cases segments with
  | nil => exact absurd rfl h
  | cons s rest =>
    rw [show _chunk_segments (s :: rest) w = chunkAux w 0 (s :: rest) [] s.start from rfl]
    rw [chunkAux_headStart w (s :: rest) (List.cons_ne_nil _ _) 0 [] s.start]
    simp

theorem _chunk_segments_lastStop {segments : List TranscriptSegment} (h : segments ≠ [])
    (w : Nat) :
    (_chunk_segments segments w).getLast?.map (·.stop) = segments.getLast?.map (·.stop) := by
  cases segments with
  | nil => exact absurd rfl h
  | cons s rest =>
    exact chunkAux_lastStop w (s :: rest) (List.cons_ne_nil _ _) 0 [] s.start

theorem _chunk_segments_chain {segments : List TranscriptSegment}
    (h : List.Chain' (fun a b => b.start = a.stop) segments) (w : Nat) :
    List.Chain' (fun a b : Chunk => b.start = a.stop) (_chunk_segments segments w) := by
  cases segments with
  | nil => simp [_chunk_segments]
  | cons s rest => exact chunkAux_chain w (s :: rest) h 0 [] s.start

theorem ltcAux_ne_nil : ∀ (pairs : List (Nat × Chunk)) (lab : Nat) (st : ℚ)
    (txt : List String) (prev : Chunk), ltcAux lab st txt prev pairs ≠ [] := by
  intro pairs
  induction pairs with
  | nil => intro lab st txt prev; simp [ltcAux]
  | cons p rest ih =>
    intro lab st txt prev
    obtain ⟨l, c⟩ := p
    simp only [ltcAux]
    split_ifs <;> simp [ih]

theorem ltcAux_headStart : ∀ (pairs : List (Nat × Chunk)) (lab : Nat) (st : ℚ)
    (txt : List String) (prev : Chunk),
    (ltcAux lab st txt prev pairs).head?.map (·.start) = some st := by
  intro pairs
  induction pairs with
  | nil => intro lab st txt prev; simp [ltcAux]
  | cons p rest ih =>
    intro lab st txt prev
    obtain ⟨l, c⟩ := p
    simp only [ltcAux]
    split_ifs <;> simp_all

theorem ltcAux_lastStop : ∀ (pairs : List (Nat × Chunk)) (lab : Nat) (st : ℚ)
    (txt : List String) (prev : Chunk),
    (ltcAux lab st txt prev pairs).getLast?.map (·.stop) =
      ((prev :: pairs.map Prod.snd).getLast?).map (·.stop) := by
  intro pairs
  induction pairs with
  | nil => intro lab st txt prev; simp [ltcAux]
  | cons p rest ih =>
    intro lab st txt prev
    obtain ⟨l, c⟩ := p
    simp only [ltcAux, List.map_cons]
    split_ifs with hne
    · rw [getLast?_cons_ne_nil _ (ltcAux_ne_nil rest l c.start [c.text] c)]
      rw [ih l c.start [c.text] c]
      rw [getLast?_cons_ne_nil prev (List.cons_ne_nil _ _)]
    · rw [ih lab st (txt ++ [c.text]) c]
      rw [getLast?_cons_ne_nil prev (List.cons_ne_nil _ _)]

theorem ltcAux_chain : ∀ (pairs : List (Nat × Chunk)) (lab : Nat) (st : ℚ)
    (txt : List String) (prev : Chunk),
    List.Chain' (fun a b : Chunk => b.start = a.stop) (prev :: pairs.map Prod.snd) →
    List.Chain' (fun p q : PreChapter => q.start = p.stop) (ltcAux lab st txt prev pairs) := by
  intro pairs
  induction pairs with
  | nil => intro lab st txt prev _; simp [ltcAux]
  | cons p rest ih =>
    intro lab st txt prev hchain
    obtain ⟨l, c⟩ := p
    simp only [List.map_cons] at hchain
    rw [List.chain'_cons] at hchain
    simp only [ltcAux]
    split_ifs with hne
    · rw [List.chain'_cons']
      constructor
      · intro y hy
        have hh := ltcAux_headStart rest l c.start [c.text] c
        rw [Option.mem_def] at hy
        rw [hy] at hh
        simp only [Option.map_some'] at hh
        rw [Option.some.injEq] at hh
        show y.start = prev.stop
        rw [hh]
        exact hchain.1
      · exact ih l c.start [c.text] c hchain.2
    · exact ih lab st (txt ++ [c.text]) c hchain.2

theorem _labels_to_chapters_ne_nil {labels : List Nat} {chunks : List Chunk}
    (hl : labels ≠ []) (hc : chunks ≠ []) : _labels_to_chapters labels chunks ≠ [] := by
  cases labels with
  | nil => exact absurd rfl hl
  | cons l ls =>
    cases chunks with
    | nil => exact absurd rfl hc
    | cons c cs => exact ltcAux_ne_nil (ls.zip cs) l c.start [c.text] c

theorem _labels_to_chapters_headStart {labels : List Nat} {chunks : List Chunk}
    (hl : labels ≠ []) (hc : chunks ≠ []) :
    (_labels_to_chapters labels chunks).head?.map (·.start) =
      chunks.head?.map (·.start) := by
  cases labels with
  | nil => exact absurd rfl hl
  | cons l ls =>
    cases chunks with
    | nil => exact absurd rfl hc
    | cons c cs =>
      rw [show _labels_to_chapters (l :: ls) (c :: cs) = ltcAux l c.start [c.text] c (ls.zip cs)
        from rfl]
      rw [ltcAux_headStart (ls.zip cs) l c.start [c.text] c]
      simp

theorem _labels_to_chapters_lastStop {labels : List Nat} {chunks : List Chunk}
    (hl : labels ≠ []) (hc : chunks ≠ []) (hlen : labels.length = chunks.length) :
    (_labels_to_chapters labels chunks).getLast?.map (·.stop) =
      chunks.getLast?.map (·.stop) := by
  cases labels with
  | nil => exact absurd rfl hl
  | cons l ls =>
    cases chunks with
    | nil => exact absurd rfl hc
    | cons c cs =>
      have hzip : (ls.zip cs).map Prod.snd = cs := by
        apply List.map_snd_zip
        simp at hlen
        omega
      rw [show _labels_to_chapters (l :: ls) (c :: cs) = ltcAux l c.start [c.text] c (ls.zip cs)
        from rfl]
      rw [ltcAux_lastStop (ls.zip cs) l c.start [c.text] c, hzip]

theorem _labels_to_chapters_chain {labels : List Nat} {chunks : List Chunk}
    (hlen : labels.length = chunks.length)
    (hchain : List.Chain' (fun a b : Chunk => b.start = a.stop) chunks) :
    List.Chain' (fun p q : PreChapter => q.start = p.stop)
      (_labels_to_chapters labels chunks) := by
  cases labels with
  | nil => simp [_labels_to_chapters]
  | cons l ls =>
    cases chunks with
    | nil => simp [_labels_to_chapters]
    | cons c cs =>
      have hzip : (ls.zip cs).map Prod.snd = cs := by
        apply List.map_snd_zip
        simp at hlen
        omega
      refine ltcAux_chain (ls.zip cs) l c.start [c.text] c ?_
      rw [hzip]
      exact hchain

end Chapterizer

/-! ### The claims -/

/-- C2: the claim "for every input list of raw turns and any merge_gap ≥ 0 and
min_segment_duration ≥ 0, adjacent output turns of the normalizer never
overlap" is false as stated: nested input turns of distinct speakers with
duration above the minimum survive unchanged.  With merge_gap = 0.35 and
min_segment_duration = 0.6 (both ≥ 0), the input [(0,10,"A"), (1,2,"B")]
normalizes to [(0,10,"Speaker 1"), (1,2,"Speaker 2")], whose adjacent pair
overlaps (10 > 1). -/
theorem C2_counterexample :
    (0 : ℚ) ≤ 7/20 ∧ (0 : ℚ) ≤ 3/5 ∧
    ¬ List.Chain' (fun a b => a.stop ≤ b.start)
      (Diarizer._postprocess_segments (7/20) (3/5)
        [⟨0, 10, "A"⟩, ⟨1, 2, "B"⟩]) := by
  refine ⟨by norm_num, by norm_num, ?_⟩
  have e : Diarizer._postprocess_segments (7/20) (3/5) [⟨0, 10, "A"⟩, ⟨1, 2, "B"⟩] =
      [⟨0, 10, "Speaker 1"⟩, ⟨1, 2, "Speaker 2"⟩] := by
    norm_num [Diarizer._postprocess_segments, Diarizer.sortByStart, List.insertionSort,
      List.orderedInsert, Diarizer.roundTurn, Diarizer._round_time, Diarizer.mergeAux,
      Diarizer.dropShortAux, Diarizer.relabelAux, Diarizer._segment_duration]
    try simp
    try norm_num [Diarizer.mergeAux, Diarizer.dropShortAux, Diarizer.relabelAux,
      Diarizer.sortByStart, List.insertionSort, List.orderedInsert,
      Diarizer._segment_duration]
    try decide
  rw [e]
  norm_num [List.chain'_cons]

/-- C2 (amended): for well-formed (start < end) and pairwise non-overlapping
raw turns, every pair of adjacent output turns a, b of the Diarization
Normalizer satisfies a.end ≤ b.start. -/
theorem C2_theorem (g m : ℚ) (raw : List RawTurn)
    (hwf : ∀ t ∈ raw, t.start < t.stop)
    (hpair : List.Pairwise (fun a b => a.stop ≤ b.start ∨ b.stop ≤ a.start) raw) :
    List.Chain' (fun a b => a.stop ≤ b.start)
      (Diarizer._postprocess_segments g m raw) :=
  Diarizer._postprocess_chain_ov g m raw hwf hpair

/-- C2 (witness): the amended theorem applied to a concrete well-formed,
non-overlapping input. -/
theorem C2_witness :
    List.Chain' (fun a b => a.stop ≤ b.start)
      (Diarizer._postprocess_segments (7/20) (3/5)
        [⟨0, 1, "A"⟩, ⟨2, 3, "B"⟩]) :=
  C2_theorem (7/20) (3/5) [⟨0, 1, "A"⟩, ⟨2, 3, "B"⟩] (by decide) (by decide)

/-- C3: the claim "every output turn has duration ≥ min_segment_duration,
except when the output list has exactly one turn" is false as stated: a
short first turn with no predecessor is kept as-is even when further turns
follow.  With merge_gap = 0.35 and min_segment_duration = 0.6, the input
[(0,0.1,"A"), (1,2,"B")] normalizes to two turns whose first has duration
0.1 < 0.6. -/
theorem C3_counterexample :
    (Diarizer._postprocess_segments (7/20) (3/5)
      [⟨0, 1/10, "A"⟩, ⟨1, 2, "B"⟩]).length = 2 ∧
    ∃ t ∈ Diarizer._postprocess_segments (7/20) (3/5) [⟨0, 1/10, "A"⟩, ⟨1, 2, "B"⟩],
      Diarizer._segment_duration t < 3/5 := by
  have e : Diarizer._postprocess_segments (7/20) (3/5) [⟨0, 1/10, "A"⟩, ⟨1, 2, "B"⟩] =
      [⟨0, 1/10, "Speaker 1"⟩, ⟨1, 2, "Speaker 2"⟩] := by
    norm_num [Diarizer._postprocess_segments, Diarizer.sortByStart, List.insertionSort,
      List.orderedInsert, Diarizer.roundTurn, Diarizer._round_time, Diarizer.mergeAux,
      Diarizer.dropShortAux, Diarizer.relabelAux, Diarizer._segment_duration]
    try simp
    try norm_num [Diarizer.mergeAux, Diarizer.dropShortAux, Diarizer.relabelAux,
      Diarizer.sortByStart, List.insertionSort, List.orderedInsert,
      Diarizer._segment_duration]
    try decide
  rw [e]
  refine ⟨rfl, ⟨0, 1/10, "Speaker 1"⟩, by simp, ?_⟩
  norm_num [Diarizer._segment_duration]

/-- C3 (amended): every output turn of the Diarization Normalizer except
possibly the first one (the earliest) has duration ≥ min_segment_duration;
a too-short turn can only survive in the first position. -/
theorem C3_theorem (g m : ℚ) (raw : List RawTurn) :
    ∀ t ∈ (Diarizer._postprocess_segments g m raw).tail,
      m ≤ Diarizer._segment_duration t :=
  Diarizer._postprocess_tail_dur g m raw

/-- C3 (witness): the amended theorem applied to a concrete input whose
output tail is non-empty. -/
theorem C3_witness :
    (3 : ℚ)/5 ≤ Diarizer._segment_duration ⟨2, 3, "Speaker 2"⟩ := by
  have e : Diarizer._postprocess_segments (7/20) (3/5) [⟨0, 1, "A"⟩, ⟨2, 3, "B"⟩] =
      [⟨0, 1, "Speaker 1"⟩, ⟨2, 3, "Speaker 2"⟩] := by
    norm_num [Diarizer._postprocess_segments, Diarizer.sortByStart, List.insertionSort,
      List.orderedInsert, Diarizer.roundTurn, Diarizer._round_time, Diarizer.mergeAux,
      Diarizer.dropShortAux, Diarizer.relabelAux, Diarizer._segment_duration]
    try simp
    try norm_num [Diarizer.mergeAux, Diarizer.dropShortAux, Diarizer.relabelAux,
      Diarizer.sortByStart, List.insertionSort, List.orderedInsert,
      Diarizer._segment_duration]
    try decide
  refine C3_theorem (7/20) (3/5) [⟨0, 1, "A"⟩, ⟨2, 3, "B"⟩] ⟨2, 3, "Speaker 2"⟩ ?_
  rw [e]
  simp

/-- C4: the claim "applying the normalizer twice produces the same intervals
as applying it once" is false as stated: absorbing a short fragment can make
two same-speaker turns adjacent within the merge gap, which only a second
pass merges.  With merge_gap = 0.35 and min_segment_duration = 0.6, the
input [(0,1,"A"), (1.4,1.5,"B"), (1.6,2.6,"A")] normalizes to two turns
[(0,1.5), (1.6,2.6)] but a second application merges them into [(0,2.6)]. -/
theorem C4_counterexample :
    (Diarizer._postprocess_segments (7/20) (3/5)
        (Diarizer._postprocess_segments (7/20) (3/5)
          [⟨0, 1, "A"⟩, ⟨7/5, 3/2, "B"⟩, ⟨8/5, 13/5, "A"⟩])).map turnInterval ≠
      (Diarizer._postprocess_segments (7/20) (3/5)
        [⟨0, 1, "A"⟩, ⟨7/5, 3/2, "B"⟩, ⟨8/5, 13/5, "A"⟩]).map turnInterval := by
  have e1 : Diarizer._postprocess_segments (7/20) (3/5)
      [⟨0, 1, "A"⟩, ⟨7/5, 3/2, "B"⟩, ⟨8/5, 13/5, "A"⟩] =
      [⟨0, 3/2, "Speaker 1"⟩, ⟨8/5, 13/5, "Speaker 1"⟩] := by
    norm_num [Diarizer._postprocess_segments, Diarizer.sortByStart, List.insertionSort,
      List.orderedInsert, Diarizer.roundTurn, Diarizer._round_time, Diarizer.mergeAux,
      Diarizer.dropShortAux, Diarizer.relabelAux, Diarizer._segment_duration]
    try simp
    try norm_num [Diarizer.mergeAux, Diarizer.dropShortAux, Diarizer.relabelAux,
      Diarizer.sortByStart, List.insertionSort, List.orderedInsert,
      Diarizer._segment_duration]
    try decide
  have e2 : Diarizer._postprocess_segments (7/20) (3/5)
      [⟨0, 3/2, "Speaker 1"⟩, ⟨8/5, 13/5, "Speaker 1"⟩] =
      [⟨0, 13/5, "Speaker 1"⟩] := by
    norm_num [Diarizer._postprocess_segments, Diarizer.sortByStart, List.insertionSort,
      List.orderedInsert, Diarizer.roundTurn, Diarizer._round_time, Diarizer.mergeAux,
      Diarizer.dropShortAux, Diarizer.relabelAux, Diarizer._segment_duration]
    try simp
    try norm_num [Diarizer.mergeAux, Diarizer.dropShortAux, Diarizer.relabelAux,
      Diarizer.sortByStart, List.insertionSort, List.orderedInsert,
      Diarizer._segment_duration]
    try decide
  rw [e1, e2]
  simp [turnInterval]

/-- C4 (amended): a second application of the normalizer preserves the
intervals whenever no two adjacent turns of the first application's output
share a speaker with a gap at most merge_gap (the first application can
produce such a pair only through short-fragment absorption, and then a
second application merges it further). -/
theorem C4_theorem (g m : ℚ) (raw : List RawTurn)
    (h : List.Chain' (fun a b => ¬(b.speaker = a.speaker ∧ b.start - a.stop ≤ g))
      (Diarizer._postprocess_segments g m raw)) :
    (Diarizer._postprocess_segments g m
        (Diarizer._postprocess_segments g m raw)).map turnInterval =
      (Diarizer._postprocess_segments g m raw).map turnInterval :=
  Diarizer._postprocess_idem g m raw h

/-- C4 (witness): the amended theorem applied to a concrete input whose
normalized output has no same-speaker adjacency within the merge gap. -/
theorem C4_witness :
    (Diarizer._postprocess_segments (7/20) (3/5)
        (Diarizer._postprocess_segments (7/20) (3/5)
          [⟨0, 1, "A"⟩, ⟨2, 3, "B"⟩])).map turnInterval =
      (Diarizer._postprocess_segments (7/20) (3/5)
        [⟨0, 1, "A"⟩, ⟨2, 3, "B"⟩]).map turnInterval := by
  apply C4_theorem
  have e : Diarizer._postprocess_segments (7/20) (3/5) [⟨0, 1, "A"⟩, ⟨2, 3, "B"⟩] =
      [⟨0, 1, "Speaker 1"⟩, ⟨2, 3, "Speaker 2"⟩] := by
    norm_num [Diarizer._postprocess_segments, Diarizer.sortByStart, List.insertionSort,
      List.orderedInsert, Diarizer.roundTurn, Diarizer._round_time, Diarizer.mergeAux,
      Diarizer.dropShortAux, Diarizer.relabelAux, Diarizer._segment_duration]
    try simp
    try norm_num [Diarizer.mergeAux, Diarizer.dropShortAux, Diarizer.relabelAux,
      Diarizer.sortByStart, List.insertionSort, List.orderedInsert,
      Diarizer._segment_duration]
    try decide
  rw [e]
  rw [List.chain'_cons]
  refine ⟨?_, List.chain'_singleton _⟩
  simp

/-- C9: every output turn of the Diarization Normalizer takes its start from
some input turn's start rounded to 3 decimal places and its end from some
input turn's end rounded to 3 decimal places — normalization only merges
and relabels, never fabricating a timestamp. -/
theorem C9_theorem (g m : ℚ) (raw : List RawTurn) :
    ∀ t ∈ Diarizer._postprocess_segments g m raw,
      (∃ r ∈ raw, t.start = Diarizer._round_time r.start) ∧
      (∃ r ∈ raw, t.stop = Diarizer._round_time r.stop) :=
  Diarizer._postprocess_mem_times g m raw

/-- C9 (witness): the theorem applied to a concrete input and a concrete
member of its output. -/
theorem C9_witness :
    (∃ r ∈ [(⟨0, 1, "A"⟩ : RawTurn)],
      (⟨0, 1, "Speaker 1"⟩ : RawTurn).start = Diarizer._round_time r.start) ∧
    (∃ r ∈ [(⟨0, 1, "A"⟩ : RawTurn)],
      (⟨0, 1, "Speaker 1"⟩ : RawTurn).stop = Diarizer._round_time r.stop) := by
  have e : Diarizer._postprocess_segments (7/20) (3/5) [⟨0, 1, "A"⟩] =
      [⟨0, 1, "Speaker 1"⟩] := by
    norm_num [Diarizer._postprocess_segments, Diarizer.sortByStart, List.insertionSort,
      List.orderedInsert, Diarizer.roundTurn, Diarizer._round_time, Diarizer.mergeAux,
      Diarizer.dropShortAux, Diarizer.relabelAux, Diarizer._segment_duration]
    try simp
    try norm_num [Diarizer.mergeAux, Diarizer.dropShortAux, Diarizer.relabelAux,
      Diarizer.sortByStart, List.insertionSort, List.orderedInsert,
      Diarizer._segment_duration]
    try decide
  refine C9_theorem (7/20) (3/5) [⟨0, 1, "A"⟩] ⟨0, 1, "Speaker 1"⟩ ?_
  rw [e]
  simp

/-- C5: the claim that Scenario A normalizes with first turn (0.0, 2.0) is
false: absorbing the 0.05s "Y" fragment extends the merged turn's end to
max(2.0, 2.1) = 2.1, so the first (and only) output turn is (0.0, 2.1),
not (0.0, 2.0). -/
theorem C5_counterexample :
    ((Diarizer._postprocess_segments (7/20) (3/5)
        [⟨0, 1, "X"⟩, ⟨6/5, 2, "X"⟩, ⟨41/20, 21/10, "Y"⟩]).head?.map turnInterval =
      some (0, 21/10)) ∧ (21/10 : ℚ) ≠ 2 := by
  have e : Diarizer._postprocess_segments (7/20) (3/5)
      [⟨0, 1, "X"⟩, ⟨6/5, 2, "X"⟩, ⟨41/20, 21/10, "Y"⟩] =
      [⟨0, 21/10, "Speaker 1"⟩] := by
    norm_num [Diarizer._postprocess_segments, Diarizer.sortByStart, List.insertionSort,
      List.orderedInsert, Diarizer.roundTurn, Diarizer._round_time, Diarizer.mergeAux,
      Diarizer.dropShortAux, Diarizer.relabelAux, Diarizer._segment_duration]
    try simp
    try norm_num [Diarizer.mergeAux, Diarizer.dropShortAux, Diarizer.relabelAux,
      Diarizer.sortByStart, List.insertionSort, List.orderedInsert,
      Diarizer._segment_duration]
    try decide
  constructor
  · rw [e]
    rfl
  · norm_num

/-- C5 (amended): with merge_gap = 0.35 and min_segment_duration = 0.6, the
raw turns [(0,1,"X"), (1.2,2,"X"), (2.05,2.1,"Y")] normalize to the single
turn (0.0, 2.1, "Speaker 1"): the same-speaker turns merge, the 0.05s "Y"
fragment is absorbed (extending the end to 2.1), and no separate turn
derived from "Y" remains. -/
theorem C5_amended :
    Diarizer._postprocess_segments (7/20) (3/5)
      [⟨0, 1, "X"⟩, ⟨6/5, 2, "X"⟩, ⟨41/20, 21/10, "Y"⟩] =
      [⟨0, 21/10, "Speaker 1"⟩] := by
  norm_num [Diarizer._postprocess_segments, Diarizer.sortByStart, List.insertionSort,
    List.orderedInsert, Diarizer.roundTurn, Diarizer._round_time, Diarizer.mergeAux,
    Diarizer.dropShortAux, Diarizer.relabelAux, Diarizer._segment_duration]
  try simp
  try norm_num [Diarizer.mergeAux, Diarizer.dropShortAux, Diarizer.relabelAux,
    Diarizer.sortByStart, List.insertionSort, List.orderedInsert,
    Diarizer._segment_duration]
  try decide

/-- C6: the claim that Scenario B's second span has text " here" is false:
the span text is the plain concatenation of the word texts followed by a
trim of the whole span, and the trim removes the leading space, giving
"here".  Everything else about the scenario (two spans, their speakers,
their time ranges, the first span's text) holds. -/
theorem C6_counterexample :
    ((Diarizer.align_transcript_with_diarization
        [⟨0, 6/5, "Speaker 1"⟩, ⟨7/5, 3, "Speaker 2"⟩]
        [⟨0, 2, "Hello world here",
          [⟨"Hello", 0, 1/2, 1⟩, ⟨" world", 3/5, 1, 1⟩, ⟨" here", 3/2, 2, 1⟩]⟩]).map
      (·.text) = ["Hello world", "here"]) ∧ ("here" : String) ≠ " here" := by
  have e : Diarizer.align_transcript_with_diarization
      [⟨0, 6/5, "Speaker 1"⟩, ⟨7/5, 3, "Speaker 2"⟩]
      [⟨0, 2, "Hello world here",
        [⟨"Hello", 0, 1/2, 1⟩, ⟨" world", 3/5, 1, 1⟩, ⟨" here", 3/2, 2, 1⟩]⟩] =
      [⟨"Speaker 1", 0, 1, "Hello world"⟩, ⟨"Speaker 2", 3/2, 2, "here"⟩] := by
    simp only [Diarizer.align_transcript_with_diarization, Diarizer.flattenWords,
      List.map, List.flatten, ne_eq, List.cons_ne_nil, not_false_eq_true, if_true,
      reduceIte, List.append_nil]
    norm_num [Diarizer.alignAux, Diarizer.get_speaker_at, Diarizer.closeSpan]
    try simp
    try decide
  constructor
  · rw [e]
    rfl
  · decide

/-- C6 (amended): for words [("Hello",0,0.5), (" world",0.6,1.0),
(" here",1.5,2.0)] and turns [(0,1.2,"Speaker 1"), (1.4,3.0,"Speaker 2")],
the Aligner returns exactly two spans: "Speaker 1" over [0,1] with text
"Hello world" and "Speaker 2" over [1.5,2] with text "here" (the plain
concatenation " here" of the second span's words, trimmed). -/
theorem C6_amended :
    Diarizer.align_transcript_with_diarization
      [⟨0, 6/5, "Speaker 1"⟩, ⟨7/5, 3, "Speaker 2"⟩]
      [⟨0, 2, "Hello world here",
        [⟨"Hello", 0, 1/2, 1⟩, ⟨" world", 3/5, 1, 1⟩, ⟨" here", 3/2, 2, 1⟩]⟩] =
      [⟨"Speaker 1", 0, 1, "Hello world"⟩, ⟨"Speaker 2", 3/2, 2, "here"⟩] := by
  simp only [Diarizer.align_transcript_with_diarization, Diarizer.flattenWords,
    List.map, List.flatten, ne_eq, List.cons_ne_nil, not_false_eq_true, if_true,
    reduceIte, List.append_nil]
  norm_num [Diarizer.alignAux, Diarizer.get_speaker_at, Diarizer.closeSpan]
  try simp
  try decide

/-- C1: the claim that for every non-empty unit list the chapter list is a
contiguous partition of [first_unit.start, last_unit.end] fails in two ways.
Short-circuit branch: when chunking yields fewer than 2 chunks the Segmenter
emits the fixed dict {start: 0.0, title: "Overview", summary: "Full Content"}
with no "end" key, regardless of the input's time range — for the single
unit [5,6] the emitted chapter starts at 0, not 5.  Clustering branch: when
the units themselves are not contiguous, the chapter boundaries inherit the
gap — for units [0,1],[1,2],[2,3],[4,5] (a gap between 3 and 4) the two
chapters are [0,3] and [4,5], which are not contiguous and whose union does
not cover (3,4). -/
theorem C1_counterexample :
    (Chapterizer.process [⟨"hello", 5, 6⟩] (fun _ => []) (fun _ => .exc) =
      [⟨0, none, "Overview", "Full Content"⟩] ∧ (0 : ℚ) ≠ 5) ∧
    ¬ List.Chain' (fun a b : Chapter => a.stop = some b.start)
      (Chapterizer.process [⟨"a", 0, 1⟩, ⟨"b", 1, 2⟩, ⟨"c", 2, 3⟩, ⟨"d", 4, 5⟩]
        (fun _ => [0, 1]) (fun _ => .exc)) := by
  refine ⟨⟨?_, by norm_num⟩, ?_⟩
  · norm_num [Chapterizer.process, Chapterizer._chunk_segments, Chapterizer.chunkAux]
  · have e : Chapterizer.process [⟨"a", 0, 1⟩, ⟨"b", 1, 2⟩, ⟨"c", 2, 3⟩, ⟨"d", 4, 5⟩]
        (fun _ => [0, 1]) (fun _ => .exc) =
        [⟨0, some 3, "Untitled Segment", "a b c..."⟩,
          ⟨4, some 5, "Untitled Segment", "d..."⟩] := by
      norm_num [Chapterizer.process, Chapterizer._chunk_segments, Chapterizer.chunkAux,
        Chapterizer._labels_to_chapters, Chapterizer.ltcAux, Chapterizer._generate_title,
        joinSep, sliceTo]
      try decide
    rw [e, List.chain'_cons]
    norm_num

/-- C1 (amended): when the transcript units are contiguous (each unit
starts where the previous one ends) and chunking yields at least 2 chunks
(with one cluster label per chunk), the chapter list of the Segmenter is
contiguous — hence non-overlapping — and spans exactly
[first_unit.start, last_unit.end].  Both restrictions are forced by the
counterexample: with fewer than 2 chunks the single emitted chapter is the
fixed placeholder with start 0.0 and no end, and with non-contiguous units
the chapter boundaries inherit the gap, so the partition property fails
there too. -/
theorem C1_theorem (segments : List TranscriptSegment)
    (clusterLabels : List String → List Nat) (ollama : String → OllamaResult)
    (hne : segments ≠ [])
    (hcontig : List.Chain' (fun a b => b.start = a.stop) segments)
    (h2 : 2 ≤ (Chapterizer._chunk_segments segments 3).length)
    (hlen : (clusterLabels ((Chapterizer._chunk_segments segments 3).map (·.text))).length =
      (Chapterizer._chunk_segments segments 3).length) :
    (Chapterizer.process segments clusterLabels ollama).head?.map (·.start) =
        segments.head?.map (·.start) ∧
    (Chapterizer.process segments clusterLabels ollama).getLast?.map (·.stop) =
        segments.getLast?.map (fun s => some s.stop) ∧
    List.Chain' (fun a b : Chapter => a.stop = some b.start)
      (Chapterizer.process segments clusterLabels ollama) := by
  have hchne : Chapterizer._chunk_segments segments 3 ≠ [] :=
    Chapterizer._chunk_segments_ne_nil hne 3
  have hlne : clusterLabels ((Chapterizer._chunk_segments segments 3).map (·.text)) ≠ [] := by
    rw [← List.length_pos, hlen]
    omega
  have hproc : Chapterizer.process segments clusterLabels ollama =
      (Chapterizer._labels_to_chapters
        (clusterLabels ((Chapterizer._chunk_segments segments 3).map (·.text)))
        (Chapterizer._chunk_segments segments 3)).map
        (fun ch => ⟨ch.start, some ch.stop, Chapterizer._generate_title ollama ch.text,
          sliceTo 200 ch.text ++ "..."⟩) := by
    simp only [Chapterizer.process, if_neg hne, if_neg (not_lt.mpr h2)]
  refine ⟨?_, ?_, ?_⟩
  · rw [hproc, List.head?_map, Option.map_map]
    rw [show ((fun c : Chapter => c.start) ∘
        (fun ch : PreChapter => (⟨ch.start, some ch.stop,
          Chapterizer._generate_title ollama ch.text,
          sliceTo 200 ch.text ++ "..."⟩ : Chapter))) =
      (fun ch : PreChapter => ch.start) from rfl]
    rw [Chapterizer._labels_to_chapters_headStart hlne hchne]
    exact Chapterizer._chunk_segments_headStart hne 3
  · rw [hproc, List.getLast?_map, Option.map_map]
    rw [show ((fun c : Chapter => c.stop) ∘
        (fun ch : PreChapter => (⟨ch.start, some ch.stop,
          Chapterizer._generate_title ollama ch.text,
          sliceTo 200 ch.text ++ "..."⟩ : Chapter))) =
      some ∘ (fun ch : PreChapter => ch.stop) from rfl]
    rw [← Option.map_map, Chapterizer._labels_to_chapters_lastStop hlne hchne hlen]
    rw [show (fun s : TranscriptSegment => some s.stop) =
      some ∘ (fun s : TranscriptSegment => s.stop) from rfl]
    rw [← Option.map_map, Chapterizer._chunk_segments_lastStop hne 3]
  · rw [hproc, List.chain'_map]
    have hchap := Chapterizer._labels_to_chapters_chain hlen
      (Chapterizer._chunk_segments_chain hcontig 3)
    exact hchap.imp fun {a b} hab => by
      show some a.stop = some b.start
      rw [hab]

/-- C1 (witness): the amended theorem applied to four contiguous units
yielding two chunks with one label each. -/
theorem C1_witness :
    (Chapterizer.process [⟨"a", 0, 1⟩, ⟨"b", 1, 2⟩, ⟨"c", 2, 3⟩, ⟨"d", 3, 4⟩]
        (fun _ => [0, 1]) (fun _ => .exc)).head?.map (·.start) =
      ([⟨"a", 0, 1⟩, ⟨"b", 1, 2⟩, ⟨"c", 2, 3⟩,
        (⟨"d", 3, 4⟩ : TranscriptSegment)]).head?.map (·.start) ∧
    (Chapterizer.process [⟨"a", 0, 1⟩, ⟨"b", 1, 2⟩, ⟨"c", 2, 3⟩, ⟨"d", 3, 4⟩]
        (fun _ => [0, 1]) (fun _ => .exc)).getLast?.map (·.stop) =
      ([⟨"a", 0, 1⟩, ⟨"b", 1, 2⟩, ⟨"c", 2, 3⟩,
        (⟨"d", 3, 4⟩ : TranscriptSegment)]).getLast?.map (fun s => some s.stop) ∧
    List.Chain' (fun a b : Chapter => a.stop = some b.start)
      (Chapterizer.process [⟨"a", 0, 1⟩, ⟨"b", 1, 2⟩, ⟨"c", 2, 3⟩, ⟨"d", 3, 4⟩]
        (fun _ => [0, 1]) (fun _ => .exc)) :=
  C1_theorem [⟨"a", 0, 1⟩, ⟨"b", 1, 2⟩, ⟨"c", 2, 3⟩, ⟨"d", 3, 4⟩]
    (fun _ => [0, 1]) (fun _ => .exc) (by decide)
    (by norm_num [List.chain'_cons]) (by decide) (by decide)

/-- C7: the Segmenter always emits at least one chapter: for any non-empty
unit list (with one cluster label per chunk) the chapter list has length
≥ 1, and when there are fewer than 2 chunks it has length exactly 1. -/
theorem C7_theorem (segments : List TranscriptSegment)
    (clusterLabels : List String → List Nat) (ollama : String → OllamaResult)
    (hne : segments ≠ [])
    (hlen : (clusterLabels ((Chapterizer._chunk_segments segments 3).map (·.text))).length =
      (Chapterizer._chunk_segments segments 3).length) :
    1 ≤ (Chapterizer.process segments clusterLabels ollama).length ∧
    ((Chapterizer._chunk_segments segments 3).length < 2 →
      (Chapterizer.process segments clusterLabels ollama).length = 1) := by
  by_cases hlt : (Chapterizer._chunk_segments segments 3).length < 2
  · have hproc : Chapterizer.process segments clusterLabels ollama =
        [⟨0, none, "Overview", "Full Content"⟩] := by
      simp only [Chapterizer.process, if_neg hne, if_pos hlt]
    rw [hproc]
    exact ⟨by simp, fun _ => rfl⟩
  · have hchne : Chapterizer._chunk_segments segments 3 ≠ [] :=
      Chapterizer._chunk_segments_ne_nil hne 3
    have hlne : clusterLabels ((Chapterizer._chunk_segments segments 3).map (·.text)) ≠ [] := by
      rw [← List.length_pos, hlen, List.length_pos]
      exact hchne
    have hproc : Chapterizer.process segments clusterLabels ollama =
        (Chapterizer._labels_to_chapters
          (clusterLabels ((Chapterizer._chunk_segments segments 3).map (·.text)))
          (Chapterizer._chunk_segments segments 3)).map
          (fun ch => ⟨ch.start, some ch.stop, Chapterizer._generate_title ollama ch.text,
            sliceTo 200 ch.text ++ "..."⟩) := by
      simp only [Chapterizer.process, if_neg hne, if_neg hlt]
    constructor
    · rw [hproc, List.length_map]
      exact List.length_pos.mpr (Chapterizer._labels_to_chapters_ne_nil hlne hchne)
    · intro hcon
      exact absurd hcon hlt

/-- C7 (witness): the theorem applied to a single-unit input, which yields
one chunk and hence exactly one chapter. -/
theorem C7_witness :
    1 ≤ (Chapterizer.process [⟨"hello", 5, 6⟩] (fun _ => [0]) (fun _ => .exc)).length ∧
    ((Chapterizer._chunk_segments [⟨"hello", 5, 6⟩] 3).length < 2 →
      (Chapterizer.process [⟨"hello", 5, 6⟩] (fun _ => [0]) (fun _ => .exc)).length = 1) :=
  C7_theorem [⟨"hello", 5, 6⟩] (fun _ => [0]) (fun _ => .exc) (by decide) (by decide)

/-- C8: title generation failures are per-chapter and non-fatal: the number
and the (start, end) ranges of the chapters returned by the Segmenter do
not depend on the title oracle, and every failure mode of the title call
(text below the 50-character gate, exception/timeout, non-200 status,
empty response) produces a fixed placeholder title. -/
theorem C8_theorem (segments : List TranscriptSegment)
    (clusterLabels : List String → List Nat) (o1 o2 : String → OllamaResult)
    (text : String) :
    ((Chapterizer.process segments clusterLabels o1).map (fun c => (c.start, c.stop)) =
      (Chapterizer.process segments clusterLabels o2).map (fun c => (c.start, c.stop))) ∧
    ((Chapterizer.process segments clusterLabels o1).length =
      (Chapterizer.process segments clusterLabels o2).length) ∧
    (text.length < 50 → Chapterizer._generate_title o1 text = "Untitled Segment") ∧
    (50 ≤ text.length → o1 text = OllamaResult.exc →
      Chapterizer._generate_title o1 text = "New Chapter") ∧
    (∀ status body, 50 ≤ text.length → o1 text = OllamaResult.resp status body →
      status ≠ 200 → Chapterizer._generate_title o1 text = "New Chapter") ∧
    (∀ body, 50 ≤ text.length → o1 text = OllamaResult.resp 200 body →
      removeQuote (strip body) = "" → Chapterizer._generate_title o1 text = "Chapter") := by
  refine ⟨?_, ?_, ?_, ?_, ?_, ?_⟩
  · by_cases hne : segments = []
    · simp [Chapterizer.process, hne]
    · by_cases hlt : (Chapterizer._chunk_segments segments 3).length < 2
      · simp [Chapterizer.process, hne, hlt]
      · simp only [Chapterizer.process, if_neg hne, if_neg hlt, List.map_map]
        rfl
  · by_cases hne : segments = []
    · simp [Chapterizer.process, hne]
    · by_cases hlt : (Chapterizer._chunk_segments segments 3).length < 2
      · simp [Chapterizer.process, hne, hlt]
      · simp only [Chapterizer.process, if_neg hne, if_neg hlt, List.length_map]
  · intro hshort
    simp [Chapterizer._generate_title, hshort]
  · intro h50 hx
    simp [Chapterizer._generate_title, not_lt.mpr h50, hx]
  · intro status body h50 hx hstat
    simp [Chapterizer._generate_title, not_lt.mpr h50, hx, hstat]
  · intro body h50 hx hempty
    simp [Chapterizer._generate_title, not_lt.mpr h50, hx, hempty]

/-- C8 (witness): the theorem applied with two concrete oracles (an
exception and a 500 response) and a short text. -/
theorem C8_witness :
    ((Chapterizer.process [⟨"a", 0, 1⟩] (fun _ => [0]) (fun _ => .exc)).map
        (fun c => (c.start, c.stop)) =
      (Chapterizer.process [⟨"a", 0, 1⟩] (fun _ => [0]) (fun _ => .resp 500 "x")).map
        (fun c => (c.start, c.stop))) ∧
    Chapterizer._generate_title (fun _ => .exc) "hi" = "Untitled Segment" := by
  have h := C8_theorem [⟨"a", 0, 1⟩] (fun _ => [0]) (fun _ => .exc)
    (fun _ => .resp 500 "x") "hi"
  exact ⟨h.1, h.2.2.1 (by decide)⟩

/-- C10: in the clustering path (at least 2 chunks), every returned chapter
corresponds to a chapter range whose summary is the first 200 characters of
the range's concatenated chunk text followed by the literal "...". -/
theorem C10_theorem (segments : List TranscriptSegment)
    (clusterLabels : List String → List Nat) (ollama : String → OllamaResult)
    (hne : segments ≠ [])
    (h2 : 2 ≤ (Chapterizer._chunk_segments segments 3).length) :
    ∀ c ∈ Chapterizer.process segments clusterLabels ollama,
      ∃ pc ∈ Chapterizer._labels_to_chapters
          (clusterLabels ((Chapterizer._chunk_segments segments 3).map (·.text)))
          (Chapterizer._chunk_segments segments 3),
        c.start = pc.start ∧ c.stop = some pc.stop ∧
        c.summary = sliceTo 200 pc.text ++ "..." := by
  intro c hc
  simp only [Chapterizer.process, if_neg hne, if_neg (not_lt.mpr h2)] at hc
  obtain ⟨pc, hpc, hf⟩ := List.mem_map.mp hc
  refine ⟨pc, hpc, ?_, ?_, ?_⟩ <;> rw [← hf]

/-- C10 (witness): the theorem applied to a concrete four-unit input and a
concrete member of its chapter list. -/
theorem C10_witness :
    ∃ pc ∈ Chapterizer._labels_to_chapters
        ((fun _ => [0, 1]) ((Chapterizer._chunk_segments
          [⟨"a", 0, 1⟩, ⟨"b", 1, 2⟩, ⟨"c", 2, 3⟩, ⟨"d", 3, 4⟩] 3).map (·.text)))
        (Chapterizer._chunk_segments [⟨"a", 0, 1⟩, ⟨"b", 1, 2⟩, ⟨"c", 2, 3⟩, ⟨"d", 3, 4⟩] 3),
      (⟨0, some 3, "Untitled Segment", "a b c..."⟩ : Chapter).start = pc.start ∧
      (⟨0, some 3, "Untitled Segment", "a b c..."⟩ : Chapter).stop = some pc.stop ∧
      (⟨0, some 3, "Untitled Segment", "a b c..."⟩ : Chapter).summary =
        sliceTo 200 pc.text ++ "..." :=
  C10_theorem [⟨"a", 0, 1⟩, ⟨"b", 1, 2⟩, ⟨"c", 2, 3⟩, ⟨"d", 3, 4⟩]
    (fun _ => [0, 1]) (fun _ => .exc) (by decide) (by decide)
    ⟨0, some 3, "Untitled Segment", "a b c..."⟩ (by decide)
